import Mathlib

set_option maxRecDepth 10000

/-!
Shallow embedding of `src/image_optimizer.py` (ivlub/webdev-utils).

The program scans a directory tree for jpg/jpeg/png images, converts each to
WebP (`convert_to_webp`), builds an old-basename to new-basename mapping
(the loop in `main`, lines 281-306), rewrites references in code files with
three regular-expression substitution rules
(`update_references_in_file`, lines 173-193), and optionally deletes the
originals (lines 345-357).

Pure data (paths, file contents, the success or failure of the external
Pillow codec, existing files on disk) is passed in explicitly; filesystem
mutations are reified as a list of `FsEffect`s.
-/

/-- ASCII case-insensitive character comparison, modelling `re.IGNORECASE`. -/
def eqI (a b : Char) : Bool := a.toLower == b.toLower

/-- Case-insensitive list comparison (pattern against a slice of input). -/
def eqIList : List Char → List Char → Bool
  | [], [] => true
  | a :: as, b :: bs => eqI a b && eqIList as bs
  | _, _ => false

/-- The two quote characters of the character class in the quoted-attribute rule. -/
def isQuote (c : Char) : Bool := c == '\"' || c == '\''

/-- Python regex whitespace class over ASCII. -/
def isWs (c : Char) : Bool :=
  c == ' ' || c == '\t' || c == '\n' || c == '\r' || c == '\x0b' || c == '\x0c'

/-- Case-insensitive literal match: on success returns the matched slice
of the input (original case) and the remaining input. -/
def takeCI : List Char → List Char → Option (List Char × List Char)
  | [], s => some ([], s)
  | _ :: _, [] => none
  | p :: ps, c :: cs =>
    if eqI p c then (takeCI ps cs).map (fun x => (c :: x.1, x.2)) else none

/-- Greedy span of a character predicate (models a deterministic greedy
`X*` whose class is disjoint from what must follow). -/
def spanP (p : Char → Bool) : List Char → List Char × List Char
  | [] => ([], [])
  | c :: cs =>
    if p c then
      let r := spanP p cs
      (c :: r.1, r.2)
    else ([], c :: cs)

/-- Lazy middle of the quoted-attribute rule
`(["'])([^"']*?)(old)(["'])`: starting after the opening quote, find the
shortest non-quote middle such that a case-variant of `old` follows,
immediately followed by a quote.  Returns (middle, matched old slice,
closing quote, rest). -/
def p1Lazy (old : List Char) : List Char → Option (List Char × List Char × Char × List Char)
  | [] => none
  | c :: cs =>
    match takeCI old (c :: cs) with
    | some (ov, rest) =>
      match rest with
      | q :: r =>
        if isQuote q then some ([], ov, q, r)
        else if isQuote c then none
        else (p1Lazy old cs).map (fun x => (c :: x.1, x.2.1, x.2.2.1, x.2.2.2))
      | [] =>
        if isQuote c then none
        else (p1Lazy old cs).map (fun x => (c :: x.1, x.2.1, x.2.2.1, x.2.2.2))
    | none =>
      if isQuote c then none
      else (p1Lazy old cs).map (fun x => (c :: x.1, x.2.1, x.2.2.1, x.2.2.2))

/-- Single-match attempt of rule 1 `(["'])([^"']*?)(old)(["'])` with
replacement `\1\2new\4`, at the head of the input.  On success returns the
total number of consumed characters and the replacement text. -/
def p1MatchAt (old new : List Char) : List Char → Option (Nat × List Char)
  | [] => none
  | c :: cs =>
    if isQuote c then
      (p1Lazy old cs).map
        (fun x => (x.1.length + x.2.1.length + 2, c :: (x.1 ++ (new ++ [x.2.2.1]))))
    else none

/-- Greedy `\s*` followed by a literal `)`; returns the matched slice
(whitespace plus the paren) and the rest. -/
def wsParen (s : List Char) : Option (List Char × List Char) :=
  let w := spanP isWs s
  match w.2 with
  | ')' :: r => some (w.1 ++ [')'], r)
  | _ => none

/-- Tail group `(["']?\s*\))` of the url() rule: optional quote (greedy),
whitespace, closing paren.  The quote-less alternative can only succeed
when the head is not a quote, so the greedy choice is deterministic. -/
def g5Match (s : List Char) : Option (List Char × List Char) :=
  match s with
  | [] => none
  | q :: rest =>
    if isQuote q then (wsParen rest).map (fun x => (q :: x.1, x.2))
    else wsParen s

/-- Lazy middle `([^)]*?)(old)(["']?\s*\))` of the url() rule.  Returns
(middle, matched old slice, tail group slice, rest). -/
def p2Lazy (old : List Char) : List Char → Option (List Char × List Char × List Char × List Char)
  | [] => none
  | c :: cs =>
    match takeCI old (c :: cs) with
    | some (ov, rest) =>
      match g5Match rest with
      | some (g5, r) => some ([], ov, g5, r)
      | none =>
        if c == ')' then none
        else (p2Lazy old cs).map (fun x => (c :: x.1, x.2.1, x.2.2.1, x.2.2.2))
    | none =>
      if c == ')' then none
      else (p2Lazy old cs).map (fun x => (c :: x.1, x.2.1, x.2.2.1, x.2.2.2))

/-- Decomposed body of a url() rule match. -/
structure P2Body where
  g2 : List Char
  mid : List Char
  ov : List Char
  g5 : List Char
  rest : List Char

/-- Single-match attempt of rule 2
`(url\s*\(\s*)(["']?)([^)]*?)(old)(["']?\s*\))` with replacement
`\1\2\3new\5`, at the head of the input. -/
def p2MatchAt (old new : List Char) (s : List Char) : Option (Nat × List Char) :=
  match takeCI ['u', 'r', 'l'] s with
  | none => none
  | some (u, r1) =>
    let w1 := spanP isWs r1
    match w1.2 with
    | '(' :: r3 =>
      let w2 := spanP isWs r3
      let g1 := u ++ (w1.1 ++ '(' :: w2.1)
      let quoted : Option P2Body :=
        match w2.2 with
        | q :: r5 =>
          if isQuote q then
            (p2Lazy old r5).map (fun x => ⟨[q], x.1, x.2.1, x.2.2.1, x.2.2.2⟩)
          else none
        | [] => none
      let body : Option P2Body :=
        match quoted with
        | some b => some b
        | none => (p2Lazy old w2.2).map (fun x => ⟨[], x.1, x.2.1, x.2.2.1, x.2.2.2⟩)
      body.map (fun b =>
        (g1.length + b.g2.length + b.mid.length + b.ov.length + b.g5.length,
         g1 ++ (b.g2 ++ (b.mid ++ (new ++ b.g5)))))
    | _ => none

/-- Lazy middle `([^)]*?)(old)(\))` of the markdown rule: shortest
non-paren middle with a case-variant of `old` followed immediately by `)`. -/
def p3Lazy (old : List Char) : List Char → Option (List Char × List Char × List Char)
  | [] => none
  | c :: cs =>
    match takeCI old (c :: cs) with
    | some (ov, rest) =>
      match rest with
      | ')' :: r => some ([], ov, r)
      | _ =>
        if c == ')' then none
        else (p3Lazy old cs).map (fun x => (c :: x.1, x.2.1, x.2.2))
    | none =>
      if c == ')' then none
      else (p3Lazy old cs).map (fun x => (c :: x.1, x.2.1, x.2.2))

/-- Single-match attempt of rule 3 `(\!\[[^\]]*\]\s*\()([^)]*?)(old)(\))`
with replacement `\1\2new\4`, at the head of the input. -/
def p3MatchAt (old new : List Char) : List Char → Option (Nat × List Char)
  | c1 :: c2 :: r1 =>
    if c1 = '!' ∧ c2 = '[' then
      let a := spanP (fun c => !(c == ']')) r1
      match a.2 with
      | ']' :: r3 =>
        let w := spanP isWs r3
        match w.2 with
        | '(' :: r5 =>
          (p3Lazy old r5).map (fun x =>
            let g1 := '!' :: '[' :: (a.1 ++ ']' :: (w.1 ++ ['(']))
            (g1.length + x.1.length + x.2.1.length + 1, g1 ++ (x.1 ++ (new ++ [')']))))
        | _ => none
      | _ => none
    else none
  | _ => none

/-- Left-to-right non-overlapping substitution, modelling `re.subn`.  The
fuel is the input length; every successful match consumes at least one
character. -/
def subnFuel (matchAt : List Char → Option (Nat × List Char)) :
    Nat → List Char → List Char × Nat
  | _, [] => ([], 0)
  | 0, s => (s, 0)
  | fuel + 1, c :: rest =>
    match matchAt (c :: rest) with
    | some (n, repl) =>
      let r := subnFuel matchAt fuel (List.drop (n - 1) rest)
      (repl ++ r.1, r.2 + 1)
    | none =>
      let r := subnFuel matchAt fuel rest
      (c :: r.1, r.2)

/-- Full `re.subn` pass over the input. -/
def subn (matchAt : List Char → Option (Nat × List Char)) (s : List Char) :
    List Char × Nat :=
  subnFuel matchAt s.length s

/-- One mapping entry applied through the three ordered patterns
(lines 180-193 of the source): each pattern runs `re.subn` on the current
content; counts accumulate. -/
def applyPatterns (old new : List Char) (content : List Char) : List Char × Nat :=
  let r1 := subn (p1MatchAt old new) content
  let c1 := if r1.2 > 0 then r1.1 else content
  let r2 := subn (p2MatchAt old new) c1
  let c2 := if r2.2 > 0 then r2.1 else c1
  let r3 := subn (p3MatchAt old new) c2
  let c3 := if r3.2 > 0 then r3.1 else c2
  (c3, r1.2 + r2.2 + r3.2)

/-- The mapping loop of `update_references_in_file`: every mapping entry
(in insertion order) is applied through the three patterns; the total
replacement count is returned with the final content. -/
def updateRefs (content : String) (mappings : List (String × String)) : String × Nat :=
  let r := mappings.foldl
    (fun acc kv =>
      let s := applyPatterns kv.1.toList kv.2.toList acc.1
      (s.1, acc.2 + s.2))
    (content.toList, 0)
  (⟨r.1⟩, r.2)

/-- A filesystem path: directory components plus the final component. -/
structure FsPath where
  dir : List String
  name : String
deriving DecidableEq

/-- Index (from the end) of the last `.` of a name, as the index of the
first `.` of the reversed character list. -/
def revDotIdx : List Char → Option Nat
  | [] => none
  | c :: cs => if c = '.' then some 0 else (revDotIdx cs).map (· + 1)

/-- CPython `pathlib` stem/suffix split of a final path component: the
suffix runs from the last dot, provided that dot is neither the first nor
the last character; otherwise the suffix is empty. -/
def pySplitExtList (cs : List Char) : List Char × List Char :=
  match revDotIdx cs.reverse with
  | none => (cs, [])
  | some j =>
    if 0 < j ∧ j + 1 < cs.length then
      ((cs.reverse.drop (j + 1)).reverse, (cs.reverse.take (j + 1)).reverse)
    else (cs, [])

/-- `PurePath.stem` of a name. -/
def pyStem (s : String) : String := ⟨(pySplitExtList s.toList).1⟩

/-- `PurePath.suffix` of a name. -/
def pySuffix (s : String) : String := ⟨(pySplitExtList s.toList).2⟩

/-- Final component of `PurePath.with_suffix(ext)`. -/
def withSuffixName (s ext : String) : String := pyStem s ++ ext

/-- `PurePath.with_suffix(ext)`: same directory, stem kept, new suffix. -/
def withSuffixPath (p : FsPath) (ext : String) : FsPath :=
  ⟨p.dir, withSuffixName p.name ext⟩

/-- Backup sibling `image_path.with_suffix(image_path.suffix + '.backup')`
(line 88 of the source). -/
def backupPathOf (p : FsPath) : FsPath :=
  withSuffixPath p (pySuffix p.name ++ ".backup")

/-- ASCII lowercasing of a string, modelling `str.lower()`. -/
def strToLower (s : String) : String := ⟨s.toList.map Char.toLower⟩

/-- Recognized image extensions (line 36 of the source). -/
def IMAGE_EXTENSIONS : List String := [".jpg", ".jpeg", ".png"]

/-- Recognized code-file extensions (line 37 of the source). -/
def CODE_EXTENSIONS : List String :=
  [".html", ".htm", ".php", ".css", ".js", ".jsx", ".tsx", ".vue", ".svelte", ".md", ".markdown"]

/-- Extension test used by `find_images`: lowercase suffix in the image set. -/
def isImageName (n : String) : Bool :=
  IMAGE_EXTENSIONS.contains (strToLower (pySuffix n))

/-- Reified filesystem mutation. -/
inductive FsEffect where
  | copy : FsPath → FsPath → FsEffect
  | write : FsPath → FsEffect
  | writeText : FsPath → FsEffect
  | delete : FsPath → FsEffect
deriving DecidableEq

/-- One discovered image together with the external-world data its
processing depends on: its byte size, whether its backup sibling already
exists, and whether the copy and the Pillow decode/encode would succeed
(the codec is an external collaborator), plus the resulting byte size. -/
structure ImageInfo where
  path : FsPath
  size : Nat
  backupExists : Bool
  copyOk : Bool
  convertOk : Bool
  newSize : Nat
deriving DecidableEq

/-- Result of `convert_to_webp`: the (attempted) destination path, the
success flag, and the filesystem mutations performed. -/
structure ConvertOutcome where
  dest : FsPath
  ok : Bool
  effects : List FsEffect
deriving DecidableEq

/-- Model of `convert_to_webp` (lines 76-110): destination is the source
with suffix `.webp`; with backup requested and no existing backup sibling,
the original is copied first; any failure is caught and reported as
`ok = false` with the attempted destination path. -/
def convertToWebp (info : ImageInfo) (quality : Nat) (backup : Bool) : ConvertOutcome :=
  let webp := withSuffixPath info.path ".webp"
  let _ := quality
  if backup && !info.backupExists then
    if info.copyOk then
      if info.convertOk then
        ⟨webp, true, [FsEffect.copy info.path (backupPathOf info.path), FsEffect.write webp]⟩
      else ⟨webp, false, [FsEffect.copy info.path (backupPathOf info.path)]⟩
    else ⟨webp, false, []⟩
  else if info.convertOk then ⟨webp, true, [FsEffect.write webp]⟩
  else ⟨webp, false, []⟩

/-- Whether a particular file exists after a list of effects, given
whether it existed initially. -/
def applyEffect (b : Bool) (p : FsPath) : FsEffect → Bool
  | FsEffect.copy _ dst => if dst = p then true else b
  | FsEffect.write q => if q = p then true else b
  | FsEffect.writeText q => if q = p then true else b
  | FsEffect.delete q => if q = p then false else b

/-- Fold `applyEffect` over an effect list. -/
def fileExistsAfter (init : Bool) (effects : List FsEffect) (p : FsPath) : Bool :=
  effects.foldl (fun b e => applyEffect b p e) init

/-- Whether the effect list contains a copy onto the given destination. -/
def hasCopyTo (effects : List FsEffect) (dst : FsPath) : Bool :=
  effects.any (fun e =>
    match e with
    | FsEffect.copy _ d => decide (d = dst)
    | _ => false)

/-- Two successive invocations of `convert_to_webp` on the same image; the
second sees the backup-sibling existence produced by the first. -/
def convertTwice (info : ImageInfo) (quality : Nat) (backup : Bool) :
    ConvertOutcome × ConvertOutcome :=
  let r1 := convertToWebp info quality backup
  let info2 := { info with
    backupExists := fileExistsAfter info.backupExists r1.effects (backupPathOf info.path) }
  (r1, convertToWebp info2 quality backup)

/-- Python-dict insertion on an association list: an existing key is
updated in place, a new key is appended. -/
def dictInsert (d : List (String × String)) (k v : String) : List (String × String) :=
  if d.any (fun kv => kv.1 == k) then
    d.map (fun kv => if kv.1 == k then (k, v) else kv)
  else d ++ [(k, v)]

/-- Python-dict lookup. -/
def dictLookup (d : List (String × String)) (k : String) : Option String :=
  (d.find? (fun kv => kv.1 == k)).map (fun kv => kv.2)

/-- Number of entries with the given key. -/
def countKey (d : List (String × String)) (k : String) : Nat :=
  (d.filter (fun kv => kv.1 == k)).length

/-- Accumulated state of the conversion loop in `main` (lines 275-306). -/
structure BuildState where
  converted : List (FsPath × FsPath)
  failed : List FsPath
  totalOriginalSize : Nat
  totalNewSize : Nat
  mappings : List (String × String)
  effects : List FsEffect
deriving DecidableEq

/-- Initial loop state. -/
def initBuild : BuildState := ⟨[], [], 0, 0, [], []⟩

/-- One iteration of the conversion loop (lines 281-306): the original
size always accumulates; in dry-run mode the projected `.webp` path is
recorded without converting; otherwise `convert_to_webp` runs and, on
success, the pair and mapping entry are recorded, while on failure the
image is recorded as failed. -/
def processImage (quality : Nat) (dryRun backup : Bool) (st : BuildState)
    (info : ImageInfo) : BuildState :=
  if dryRun then
    { converted := st.converted ++ [(info.path, withSuffixPath info.path ".webp")]
      failed := st.failed
      totalOriginalSize := st.totalOriginalSize + info.size
      totalNewSize := st.totalNewSize
      mappings := dictInsert st.mappings info.path.name (withSuffixPath info.path ".webp").name
      effects := st.effects }
  else if (convertToWebp info quality backup).ok then
    { converted := st.converted ++ [(info.path, (convertToWebp info quality backup).dest)]
      failed := st.failed
      totalOriginalSize := st.totalOriginalSize + info.size
      totalNewSize := st.totalNewSize + info.newSize
      mappings := dictInsert st.mappings info.path.name (convertToWebp info quality backup).dest.name
      effects := st.effects ++ (convertToWebp info quality backup).effects }
  else
    { converted := st.converted
      failed := st.failed ++ [info.path]
      totalOriginalSize := st.totalOriginalSize + info.size
      totalNewSize := st.totalNewSize
      mappings := st.mappings
      effects := st.effects ++ (convertToWebp info quality backup).effects }

/-- The whole conversion loop over the discovered images, in scan order. -/
def buildAll (quality : Nat) (dryRun backup : Bool) (images : List ImageInfo) : BuildState :=
  images.foldl (processImage quality dryRun backup) initBuild

/-- One discovered code file: its path and its decoded content (`none`
models a file none of the attempted encodings could decode, or a read
error; both are skipped with zero replacements). -/
structure CodeFileInfo where
  path : FsPath
  content : Option String
deriving DecidableEq

/-- Model of `update_references_in_file` (lines 142-208): returns the
replacement count and the write effect, which happens only when the
content changed and dry-run is off. -/
def updateFile (info : CodeFileInfo) (mappings : List (String × String))
    (dryRun : Bool) : Nat × List FsEffect :=
  match info.content with
  | none => (0, [])
  | some content =>
    let r := updateRefs content mappings
    if r.1 ≠ content then
      if dryRun then (r.2, []) else (r.2, [FsEffect.writeText info.path])
    else (r.2, [])

/-- Accumulation step of the reference-update loop (lines 330-340). -/
def rwStep (mappings : List (String × String)) (dryRun : Bool)
    (acc : Nat × List FsEffect) (f : CodeFileInfo) : Nat × List FsEffect :=
  (acc.1 + (updateFile f mappings dryRun).1, acc.2 ++ (updateFile f mappings dryRun).2)

/-- The reference-update loop over all discovered code files. -/
def rewritePhase (files : List CodeFileInfo) (mappings : List (String × String))
    (dryRun : Bool) : Nat × List FsEffect :=
  files.foldl (rwStep mappings dryRun) (0, [])

/-- One iteration of the deletion loop (lines 348-356): an original is
unlinked only when its converted counterpart exists; an unlink failure is
caught and leaves the file in place. -/
def delStep (webpSeen unlinkOk : FsPath → Bool)
    (acc : List FsPath × List FsEffect) (pr : FsPath × FsPath) :
    List FsPath × List FsEffect :=
  if webpSeen pr.2 then
    if unlinkOk pr.1 then (acc.1 ++ [pr.1], acc.2 ++ [FsEffect.delete pr.1]) else acc
  else acc

/-- The deletion phase (lines 345-357), guarded by the flag, by dry-run
being off, and by the converted list being non-empty. -/
def deletePhase (deleteOriginals dryRun : Bool) (conv : List (FsPath × FsPath))
    (webpSeen unlinkOk : FsPath → Bool) : List FsPath × List FsEffect :=
  if deleteOriginals = true ∧ dryRun = false ∧ conv ≠ [] then
    conv.foldl (delStep webpSeen unlinkOk) ([], [])
  else ([], [])

/-- Result of one whole invocation of `main` after argument validation. -/
structure MainRun where
  build : BuildState
  replacements : Nat
  rewriteEffects : List FsEffect
  deleted : List FsPath
  deleteEffects : List FsEffect

/-- The pipeline of `main` (lines 262-357): convert (or simulate),
rewrite references using the resulting mapping, then optionally delete
originals.  With no images found, `main` returns before doing anything. -/
def runMain (quality : Nat) (dryRun backup deleteOriginals : Bool)
    (images : List ImageInfo) (codeFiles : List CodeFileInfo)
    (webpSeen unlinkOk : FsPath → Bool) : MainRun :=
  if images.isEmpty then ⟨initBuild, 0, [], [], []⟩
  else
    let b := buildAll quality dryRun backup images
    let rw := rewritePhase codeFiles b.mappings dryRun
    let del := deletePhase deleteOriginals dryRun b.converted webpSeen unlinkOk
    ⟨b, rw.1, rw.2, del.1, del.2⟩

/-- All filesystem mutations of one invocation, in order. -/
def mainEffects (quality : Nat) (dryRun backup deleteOriginals : Bool)
    (images : List ImageInfo) (codeFiles : List CodeFileInfo)
    (webpSeen unlinkOk : FsPath → Bool) : List FsEffect :=
  let r := runMain quality dryRun backup deleteOriginals images codeFiles webpSeen unlinkOk
  r.build.effects ++ r.rewriteEffects ++ r.deleteEffects

/-- Process environment of one invocation: the invocation (current
working) directory and the directory containing the script file. -/
structure Env where
  cwd : FsPath
  scriptDir : FsPath
deriving DecidableEq

/-- Model of `get_script_directory` (lines 41-43):
`Path(__file__).resolve().parent`, the directory of the script file. -/
def getScriptDirectory (env : Env) : FsPath := env.scriptDir

/-- Root-directory resolution in `main` (lines 247-250): a truthy
`--path` argument is resolved by the OS (`Path(args.path).resolve()`,
modelled by the external `osResolve`); otherwise — no `--path`, or an
empty string, which is falsy in Python — the script directory is used. -/
def resolveRoot (env : Env) (osResolve : String → FsPath)
    (pathArg : Option String) : FsPath :=
  match pathArg with
  | some p => if p = "" then getScriptDirectory env else osResolve p
  | none => getScriptDirectory env

/-! Soundness of the three single-match rules: every successful match
decomposes the input into context groups, a preserved middle, and a
case-variant occurrence of the old name, and the replacement rebuilds
exactly those groups around the new name. -/

theorem takeCI_sound : ∀ (pat s ov r : List Char), takeCI pat s = some (ov, r) →
    s = ov ++ r ∧ eqIList pat ov = true := by
  intro pat
  induction pat with
  | nil =>
    intro s ov r h
    simp [takeCI] at h
    obtain ⟨h1, h2⟩ := h
    subst h1; subst h2
    simp [eqIList]
  | cons p ps ih =>
    intro s ov r h
    cases s with
    | nil => simp [takeCI] at h
    | cons c cs =>
      simp only [takeCI] at h
      split at h
      · rw [Option.map_eq_some'] at h
        obtain ⟨x, hx, hfx⟩ := h
        obtain ⟨h1, h2⟩ := ih cs x.1 x.2 (by rw [hx])
        cases hfx
        constructor
        · simp [h1]
        · simp [eqIList, h2]
          assumption
      · exact absurd h (by simp)


theorem spanP_sound (p : Char → Bool) : ∀ s : List Char,
    (spanP p s).1 ++ (spanP p s).2 = s ∧ (spanP p s).1.all p = true := by
  intro s
  induction s with
  | nil => simp [spanP]
  | cons c cs ih =>
    by_cases hp : p c
    · simp [spanP, hp, ih.1, ih.2]
    · simp [spanP, hp]

theorem p1Lazy_sound (old : List Char) : ∀ (s mid ov : List Char) (q : Char) (r : List Char),
    p1Lazy old s = some (mid, ov, q, r) →
    s = mid ++ (ov ++ q :: r) ∧ isQuote q = true ∧ eqIList old ov = true ∧
      mid.all (fun c => !(isQuote c)) = true := by
  intro s
  induction s with
  | nil => intro mid ov q r h; simp [p1Lazy] at h
  | cons c cs ih =>
    intro mid ov q r h
    simp only [p1Lazy] at h
    split at h
    · split at h
      · split at h
        · rename_i x ov' rest q' r' htc hq
          simp only [Option.some.injEq, Prod.mk.injEq] at h
          obtain ⟨h5, h6, h7, h8⟩ := h
          subst h5; subst h6; subst h7; subst h8
          obtain ⟨hs, he⟩ := takeCI_sound old (c :: cs) ov' (q' :: r') htc
          exact ⟨by simpa using hs, hq, he, rfl⟩
        · split at h
          · exact absurd h (by simp)
          · rename_i hcq
            rw [Option.map_eq_some'] at h
            obtain ⟨x, hx, hfx⟩ := h
            obtain ⟨h1, h2, h3, h4⟩ := ih x.1 x.2.1 x.2.2.1 x.2.2.2 (by rw [hx])
            cases hfx
            refine ⟨by simp [h1], h2, h3, ?_⟩
            simp only [List.all_cons, h4, Bool.and_true]
            simpa using hcq
      · split at h
        · exact absurd h (by simp)
        · rename_i hcq
          rw [Option.map_eq_some'] at h
          obtain ⟨x, hx, hfx⟩ := h
          obtain ⟨h1, h2, h3, h4⟩ := ih x.1 x.2.1 x.2.2.1 x.2.2.2 (by rw [hx])
          cases hfx
          refine ⟨by simp [h1], h2, h3, ?_⟩
          simp only [List.all_cons, h4, Bool.and_true]
          simpa using hcq
    · split at h
      · exact absurd h (by simp)
      · rename_i hcq
        rw [Option.map_eq_some'] at h
        obtain ⟨x, hx, hfx⟩ := h
        obtain ⟨h1, h2, h3, h4⟩ := ih x.1 x.2.1 x.2.2.1 x.2.2.2 (by rw [hx])
        cases hfx
        refine ⟨by simp [h1], h2, h3, ?_⟩
        simp only [List.all_cons, h4, Bool.and_true]
        simpa using hcq

theorem p1MatchAt_sound : ∀ (old new s : List Char) (n : Nat) (repl : List Char),
    p1MatchAt old new s = some (n, repl) →
    ∃ q1 mid ov q2 r, s = q1 :: (mid ++ (ov ++ q2 :: r)) ∧
      isQuote q1 = true ∧ isQuote q2 = true ∧ eqIList old ov = true ∧
      mid.all (fun c => !(isQuote c)) = true ∧
      repl = q1 :: (mid ++ (new ++ [q2])) ∧ n = mid.length + ov.length + 2 := by
  intro old new s n repl h
  cases s with
  | nil => simp [p1MatchAt] at h
  | cons c cs =>
    simp only [p1MatchAt] at h
    split at h
    · rename_i hq1
      rw [Option.map_eq_some'] at h
      obtain ⟨x, hx, hfx⟩ := h
      obtain ⟨h1, h2, h3, h4⟩ := p1Lazy_sound old cs x.1 x.2.1 x.2.2.1 x.2.2.2 (by rw [hx])
      cases hfx
      exact ⟨c, x.1, x.2.1, x.2.2.1, x.2.2.2, by rw [h1], hq1, h2, h3, h4, rfl, rfl⟩
    · exact absurd h (by simp)

theorem wsParen_sound : ∀ (s t r : List Char), wsParen s = some (t, r) → s = t ++ r := by
  intro s t r h
  simp only [wsParen] at h
  split at h
  · rename_i x r' hw
    simp only [Option.some.injEq, Prod.mk.injEq] at h
    obtain ⟨h1, h2⟩ := h
    subst h1; subst h2
    have hsp := (spanP_sound isWs s).1
    rw [hw] at hsp
    rw [List.append_assoc]
    exact hsp.symm
  · exact absurd h (by simp)

theorem g5Match_sound : ∀ (s g5 r : List Char), g5Match s = some (g5, r) → s = g5 ++ r := by
  intro s g5 r h
  cases s with
  | nil => simp [g5Match] at h
  | cons q rest =>
    simp only [g5Match] at h
    split at h
    · rw [Option.map_eq_some'] at h
      obtain ⟨x, hx, hfx⟩ := h
      have := wsParen_sound rest x.1 x.2 (by rw [hx])
      cases hfx
      simp [this]
    · exact wsParen_sound (q :: rest) g5 r h

theorem p2Lazy_sound (old : List Char) : ∀ (s mid ov g5 r : List Char),
    p2Lazy old s = some (mid, ov, g5, r) →
    s = mid ++ (ov ++ (g5 ++ r)) ∧ eqIList old ov = true := by
  intro s
  induction s with
  | nil => intro mid ov g5 r h; simp [p2Lazy] at h
  | cons c cs ih =>
    intro mid ov g5 r h
    simp only [p2Lazy] at h
    split at h
    · split at h
      · rename_i x ov' rest htc x2 g5' r' hg5
        simp only [Option.some.injEq, Prod.mk.injEq] at h
        obtain ⟨h1, h2, h3, h4⟩ := h
        subst h1; subst h2; subst h3; subst h4
        obtain ⟨hs, he⟩ := takeCI_sound old (c :: cs) ov' rest htc
        have hrest := g5Match_sound rest g5' r' hg5
        subst hrest
        exact ⟨by simpa using hs, he⟩
      · split at h
        · exact absurd h (by simp)
        · rw [Option.map_eq_some'] at h
          obtain ⟨x, hx, hfx⟩ := h
          obtain ⟨h1, h2⟩ := ih x.1 x.2.1 x.2.2.1 x.2.2.2 (by rw [hx])
          cases hfx
          exact ⟨by simp [h1], h2⟩
    · split at h
      · exact absurd h (by simp)
      · rw [Option.map_eq_some'] at h
        obtain ⟨x, hx, hfx⟩ := h
        obtain ⟨h1, h2⟩ := ih x.1 x.2.1 x.2.2.1 x.2.2.2 (by rw [hx])
        cases hfx
        exact ⟨by simp [h1], h2⟩

theorem p2MatchAt_sound : ∀ (old new s : List Char) (n : Nat) (repl : List Char),
    p2MatchAt old new s = some (n, repl) →
    ∃ g1 g2 mid ov g5 r, s = g1 ++ (g2 ++ (mid ++ (ov ++ (g5 ++ r)))) ∧
      eqIList old ov = true ∧
      repl = g1 ++ (g2 ++ (mid ++ (new ++ g5))) ∧
      n = g1.length + g2.length + mid.length + ov.length + g5.length := by
  intro old new s n repl h
  simp only [p2MatchAt] at h
  split at h
  · exact absurd h (by simp)
  · rename_i x u r1 hurl
    split at h
    · rename_i x2 r3 hw1
      rw [Option.map_eq_some'] at h
      obtain ⟨b, hb, hfb⟩ := h
      cases hfb
      obtain ⟨hs1, _⟩ := takeCI_sound ['u', 'r', 'l'] s u r1 hurl
      have hw1s := (spanP_sound isWs r1).1
      rw [hw1] at hw1s
      have hw2s := (spanP_sound isWs r3).1
      set w1a := (spanP isWs r1).1 with hw1a
      set w2a := (spanP isWs r3).1 with hw2a
      split at hb
      · -- quoted alternative matched
        rename_i bq hbq
        split at hbq
        · rename_i x3 q r5 hq
          split at hbq
          · rename_i hqq
            rw [Option.map_eq_some'] at hbq
            obtain ⟨y, hy, hfy⟩ := hbq
            obtain ⟨h1, h2⟩ := p2Lazy_sound old r5 y.1 y.2.1 y.2.2.1 y.2.2.2 (by rw [hy])
            cases hfy
            injection hb with hbb
            subst hbb
            refine ⟨u ++ (w1a ++ '(' :: w2a), [q],
              y.1, y.2.1, y.2.2.1, y.2.2.2, ?_, h2, rfl, rfl⟩
            subst hs1
            rw [← hw1s]
            rw [hq] at hw2s
            rw [← hw2s, h1]
            simp [List.append_assoc]
          · exact absurd hbq (by simp)
        · exact absurd hbq (by simp)
      · -- bare alternative
        rw [Option.map_eq_some'] at hb
        obtain ⟨y, hy, hfy⟩ := hb
        obtain ⟨h1, h2⟩ := p2Lazy_sound old _ y.1 y.2.1 y.2.2.1 y.2.2.2 (by rw [hy])
        cases hfy
        refine ⟨u ++ (w1a ++ '(' :: w2a), [],
          y.1, y.2.1, y.2.2.1, y.2.2.2, ?_, h2, rfl, rfl⟩
        subst hs1
        rw [← hw1s]
        rw [h1] at hw2s
        rw [← hw2s]
        simp [List.append_assoc]
    · exact absurd h (by simp)

theorem p3Lazy_sound (old : List Char) : ∀ (s mid ov r : List Char),
    p3Lazy old s = some (mid, ov, r) →
    s = mid ++ (ov ++ ')' :: r) ∧ eqIList old ov = true := by
  intro s
  induction s with
  | nil => intro mid ov r h; simp [p3Lazy] at h
  | cons c cs ih =>
    intro mid ov r h
    simp only [p3Lazy] at h
    split at h
    · split at h
      · rename_i x ov' x2 r' htc
        simp only [Option.some.injEq, Prod.mk.injEq] at h
        obtain ⟨h1, h2, h3⟩ := h
        subst h1; subst h2; subst h3
        obtain ⟨hs, he⟩ := takeCI_sound old (c :: cs) ov' (')' :: r') htc
        exact ⟨by simpa using hs, he⟩
      · split at h
        · exact absurd h (by simp)
        · rw [Option.map_eq_some'] at h
          obtain ⟨x, hx, hfx⟩ := h
          obtain ⟨h1, h2⟩ := ih x.1 x.2.1 x.2.2 (by rw [hx])
          cases hfx
          exact ⟨by simp [h1], h2⟩
    · split at h
      · exact absurd h (by simp)
      · rw [Option.map_eq_some'] at h
        obtain ⟨x, hx, hfx⟩ := h
        obtain ⟨h1, h2⟩ := ih x.1 x.2.1 x.2.2 (by rw [hx])
        cases hfx
        exact ⟨by simp [h1], h2⟩

theorem p3MatchAt_sound : ∀ (old new s : List Char) (n : Nat) (repl : List Char),
    p3MatchAt old new s = some (n, repl) →
    ∃ g1 mid ov r, s = g1 ++ (mid ++ (ov ++ ')' :: r)) ∧
      eqIList old ov = true ∧
      repl = g1 ++ (mid ++ (new ++ [')'])) ∧
      n = g1.length + mid.length + ov.length + 1 := by
  intro old new s n repl h
  cases s with
  | nil => simp [p3MatchAt] at h
  | cons c1 s1 =>
    cases s1 with
    | nil => simp [p3MatchAt] at h
    | cons c2 r1 =>
      simp only [p3MatchAt] at h
      split at h
      · rename_i hcc
        obtain ⟨hc1, hc2⟩ := hcc
        subst hc1; subst hc2
        split at h
        · rename_i x2 r3 ha
          split at h
          · rename_i x3 r5 hw
            rw [Option.map_eq_some'] at h
            obtain ⟨y, hy, hfy⟩ := h
            obtain ⟨h1, h2⟩ := p3Lazy_sound old r5 y.1 y.2.1 y.2.2 (by rw [hy])
            cases hfy
            have has := (spanP_sound (fun c => !(c == ']')) r1).1
            rw [ha] at has
            have hws := (spanP_sound isWs r3).1
            rw [hw] at hws
            set a1 := (spanP (fun c => !(c == ']')) r1).1 with ha1
            set wa := (spanP isWs r3).1 with hwa
            refine ⟨'!' :: '[' :: (a1 ++ ']' :: (wa ++ ['('])), y.1, y.2.1, y.2.2, ?_, h2, rfl, rfl⟩
            rw [← has]
            rw [h1] at hws
            rw [← hws]
            simp [List.append_assoc]
          · exact absurd h (by simp)
        · exact absurd h (by simp)
      · exact absurd h (by simp)

/-! Lemmas about Python-dict association lists, the stem/suffix split,
and the pipeline phases. -/

theorem dictLookup_cons (kv : String × String) (d : List (String × String)) (k : String) :
    dictLookup (kv :: d) k = if kv.1 == k then some kv.2 else dictLookup d k := by
  by_cases h : kv.1 == k
  · simp [dictLookup, List.find?_cons_of_pos, h]
  · simp only [Bool.not_eq_true] at h
    simp [dictLookup, List.find?_cons_of_neg, h]

theorem lookup_map_self (k v : String) : ∀ d : List (String × String),
    d.any (fun kv => kv.1 == k) = true →
    dictLookup (d.map (fun kv => if kv.1 == k then (k, v) else kv)) k = some v := by
  intro d
  induction d with
  | nil => simp
  | cons kv d ih =>
    intro hany
    by_cases h : kv.1 == k
    · simp only [List.map_cons, h, if_pos]
      rw [dictLookup_cons]
      simp
    · simp only [List.map_cons, h, if_neg, Bool.not_eq_true]
      rw [dictLookup_cons]
      simp only [h]
      simp only [List.any_cons, h, Bool.false_or] at hany
      simpa using ih hany

theorem lookup_append_self (k v : String) : ∀ d : List (String × String),
    d.any (fun kv => kv.1 == k) = false →
    dictLookup (d ++ [(k, v)]) k = some v := by
  intro d
  induction d with
  | nil => simp [dictLookup_cons]
  | cons kv d ih =>
    intro hany
    simp only [List.any_cons, Bool.or_eq_false_iff] at hany
    rw [List.cons_append, dictLookup_cons]
    simp [hany.1, ih hany.2]

theorem dictLookup_insert_self (d : List (String × String)) (k v : String) :
    dictLookup (dictInsert d k v) k = some v := by
  by_cases hany : d.any (fun kv => kv.1 == k)
  · simp only [dictInsert, hany, if_pos]
    exact lookup_map_self k v d hany
  · simp only [Bool.not_eq_true] at hany
    simp only [dictInsert, hany, Bool.false_eq_true, if_neg, not_false_eq_true]
    exact lookup_append_self k v d hany

theorem lookup_map_other (k v k' : String) (hne : k' ≠ k) : ∀ d : List (String × String),
    dictLookup (d.map (fun kv => if kv.1 == k then (k, v) else kv)) k' = dictLookup d k' := by
  intro d
  induction d with
  | nil => simp
  | cons kv d ih =>
    by_cases h : kv.1 == k
    · simp only [List.map_cons, h, if_pos]
      rw [dictLookup_cons, dictLookup_cons]
      have h1 : kv.1 = k := by simpa using h
      have h2 : ¬(k == k') := by simpa using fun he => hne he.symm
      have h3 : ¬(kv.1 == k') := by simp [h1]; exact fun he => hne he.symm
      simp only [h2, h3, if_neg, Bool.not_eq_true]
      exact ih
    · simp only [List.map_cons, h, if_neg, Bool.not_eq_true]
      rw [dictLookup_cons, dictLookup_cons]
      by_cases h4 : kv.1 == k'
      · simp [h4]
      · simp only [Bool.not_eq_true] at h4
        simp only [h4, Bool.false_eq_true, if_false]
        simpa using ih

theorem lookup_append_other (k v k' : String) (hne : k' ≠ k) :
    ∀ d : List (String × String), dictLookup (d ++ [(k, v)]) k' = dictLookup d k' := by
  intro d
  induction d with
  | nil =>
    simp only [List.nil_append, dictLookup_cons]
    have h2 : ¬(k == k') := by simpa using fun he => hne he.symm
    simp [h2, dictLookup]
  | cons kv d ih =>
    rw [List.cons_append, dictLookup_cons, dictLookup_cons]
    by_cases h : kv.1 == k'
    · simp [h]
    · simp only [Bool.not_eq_true] at h
      simp [h, ih]

theorem dictLookup_insert_other (d : List (String × String)) (k v k' : String) (hne : k' ≠ k) :
    dictLookup (dictInsert d k v) k' = dictLookup d k' := by
  by_cases hany : d.any (fun kv => kv.1 == k)
  · simp only [dictInsert, hany, if_pos]
    exact lookup_map_other k v k' hne d
  · simp only [Bool.not_eq_true] at hany
    simp only [dictInsert, hany, Bool.false_eq_true, if_neg, not_false_eq_true]
    exact lookup_append_other k v k' hne d

theorem countKey_cons (kv : String × String) (d : List (String × String)) (k : String) :
    countKey (kv :: d) k = (if kv.1 == k then 1 else 0) + countKey d k := by
  by_cases h : kv.1 == k
  · simp [countKey, List.filter_cons_of_pos, h, Nat.add_comm]
  · simp only [Bool.not_eq_true] at h
    simp [countKey, List.filter_cons_of_neg, h]

theorem countKey_append (d1 d2 : List (String × String)) (k : String) :
    countKey (d1 ++ d2) k = countKey d1 k + countKey d2 k := by
  simp [countKey, List.filter_append]

theorem countKey_map_self (k v : String) : ∀ d : List (String × String),
    countKey (d.map (fun kv => if kv.1 == k then (k, v) else kv)) k = countKey d k := by
  intro d
  induction d with
  | nil => simp [countKey]
  | cons kv d ih =>
    by_cases h : kv.1 == k
    · rw [List.map_cons, if_pos h, countKey_cons, countKey_cons, h]
      simp only [beq_self_eq_true, if_pos]
      omega
    · rw [List.map_cons, if_neg h, countKey_cons, countKey_cons]
      omega

theorem countKey_map_other (k v k' : String) (hne : k' ≠ k) : ∀ d : List (String × String),
    countKey (d.map (fun kv => if kv.1 == k then (k, v) else kv)) k' = countKey d k' := by
  intro d
  induction d with
  | nil => simp [countKey]
  | cons kv d ih =>
    by_cases h : kv.1 == k
    · rw [List.map_cons, if_pos h, countKey_cons, countKey_cons]
      have h1 : kv.1 = k := by simpa using h
      have h2 : (k == k') = false := by simp; exact fun he => hne he.symm
      have h3 : (kv.1 == k') = false := by rw [h1]; exact h2
      rw [h2, h3, ih]
    · rw [List.map_cons, if_neg h, countKey_cons, countKey_cons]
      omega

theorem any_true_countKey_pos (d : List (String × String)) (k : String)
    (h : d.any (fun kv => kv.1 == k) = true) : 0 < countKey d k := by
  rw [List.any_eq_true] at h
  obtain ⟨kv, hmem, hkv⟩ := h
  have : kv ∈ d.filter (fun kv => kv.1 == k) := List.mem_filter.2 ⟨hmem, hkv⟩
  have := List.length_pos.2 (List.ne_nil_of_mem this)
  simpa [countKey] using this

theorem any_false_countKey_zero (d : List (String × String)) (k : String)
    (h : d.any (fun kv => kv.1 == k) = false) : countKey d k = 0 := by
  simp only [countKey, List.length_eq_zero, List.filter_eq_nil_iff]
  intro kv hmem
  rw [List.any_eq_false] at h
  exact h kv hmem

theorem countKey_insert_self (d : List (String × String)) (k v : String)
    (h : countKey d k ≤ 1) : countKey (dictInsert d k v) k = 1 := by
  by_cases hany : d.any (fun kv => kv.1 == k)
  · simp only [dictInsert, hany, if_pos]
    rw [countKey_map_self]
    have := any_true_countKey_pos d k hany
    omega
  · simp only [Bool.not_eq_true] at hany
    simp only [dictInsert, hany, Bool.false_eq_true, if_neg, not_false_eq_true]
    rw [countKey_append, any_false_countKey_zero d k hany]
    simp [countKey_cons, countKey]

theorem countKey_insert_other (d : List (String × String)) (k v k' : String) (hne : k' ≠ k) :
    countKey (dictInsert d k v) k' = countKey d k' := by
  by_cases hany : d.any (fun kv => kv.1 == k)
  · simp only [dictInsert, hany, if_pos]
    exact countKey_map_other k v k' hne d
  · simp only [Bool.not_eq_true] at hany
    simp only [dictInsert, hany, Bool.false_eq_true, if_neg, not_false_eq_true]
    rw [countKey_append]
    have h2 : (k == k') = false := by simp; exact fun he => hne he.symm
    simp [countKey_cons, countKey, h2]

theorem wf_dictInsert (d : List (String × String)) (k v : String)
    (h : ∀ k0, countKey d k0 ≤ 1) : ∀ k0, countKey (dictInsert d k v) k0 ≤ 1 := by
  intro k0
  by_cases hk : k0 = k
  · subst hk
    rw [countKey_insert_self d k0 v (h k0)]
  · rw [countKey_insert_other d k v k0 hk]
    exact h k0

theorem convert_dest (info : ImageInfo) (q : Nat) (b : Bool) :
    (convertToWebp info q b).dest = withSuffixPath info.path ".webp" := by
  cases hb : (b && !info.backupExists) <;> cases hc : info.copyOk <;>
    cases hk : info.convertOk <;> simp [convertToWebp, hb, hc, hk]

theorem convert_no_delete (info : ImageInfo) (q : Nat) (b : Bool) (p : FsPath) :
    FsEffect.delete p ∉ (convertToWebp info q b).effects := by
  cases hb : (b && !info.backupExists) <;> cases hc : info.copyOk <;>
    cases hk : info.convertOk <;> simp [convertToWebp, hb, hc, hk]

theorem processImage_dry (q : Nat) (b : Bool) (st : BuildState) (info : ImageInfo) :
    processImage q true b st info =
      { converted := st.converted ++ [(info.path, withSuffixPath info.path ".webp")]
        failed := st.failed
        totalOriginalSize := st.totalOriginalSize + info.size
        totalNewSize := st.totalNewSize
        mappings := dictInsert st.mappings info.path.name (withSuffixPath info.path ".webp").name
        effects := st.effects } := by
  simp [processImage]

theorem processImage_ok (q : Nat) (b : Bool) (st : BuildState) (info : ImageInfo)
    (h : (convertToWebp info q b).ok = true) :
    processImage q false b st info =
      { converted := st.converted ++ [(info.path, withSuffixPath info.path ".webp")]
        failed := st.failed
        totalOriginalSize := st.totalOriginalSize + info.size
        totalNewSize := st.totalNewSize + info.newSize
        mappings := dictInsert st.mappings info.path.name (withSuffixPath info.path ".webp").name
        effects := st.effects ++ (convertToWebp info q b).effects } := by
  simp [processImage, h, convert_dest]

theorem processImage_fail (q : Nat) (b : Bool) (st : BuildState) (info : ImageInfo)
    (h : (convertToWebp info q b).ok = false) :
    processImage q false b st info =
      { converted := st.converted
        failed := st.failed ++ [info.path]
        totalOriginalSize := st.totalOriginalSize + info.size
        totalNewSize := st.totalNewSize
        mappings := st.mappings
        effects := st.effects ++ (convertToWebp info q b).effects } := by
  simp [processImage, h]

theorem build_effects_dry (q : Nat) (b : Bool) : ∀ (l : List ImageInfo) (st : BuildState),
    (List.foldl (processImage q true b) st l).effects = st.effects := by
  intro l
  induction l with
  | nil => intro st; rfl
  | cons i l ih =>
    intro st
    rw [List.foldl_cons, ih, processImage_dry]

theorem build_totalNew_dry (q : Nat) (b : Bool) : ∀ (l : List ImageInfo) (st : BuildState),
    (List.foldl (processImage q true b) st l).totalNewSize = st.totalNewSize := by
  intro l
  induction l with
  | nil => intro st; rfl
  | cons i l ih =>
    intro st
    rw [List.foldl_cons, ih, processImage_dry]

theorem build_no_delete (q : Nat) (dr b : Bool) (p : FsPath) :
    ∀ (l : List ImageInfo) (st : BuildState),
    FsEffect.delete p ∈ (List.foldl (processImage q dr b) st l).effects →
    FsEffect.delete p ∈ st.effects := by
  intro l
  induction l with
  | nil => intro st h; exact h
  | cons i l ih =>
    intro st h
    have h2 := ih _ h
    cases dr with
    | true =>
      rw [processImage_dry] at h2
      exact h2
    | false =>
      cases hok : (convertToWebp i q b).ok with
      | true =>
        rw [processImage_ok q b st i hok] at h2
        simp only [List.mem_append] at h2
        rcases h2 with h2 | h2
        · exact h2
        · exact absurd h2 (convert_no_delete i q b p)
      | false =>
        rw [processImage_fail q b st i hok] at h2
        simp only [List.mem_append] at h2
        rcases h2 with h2 | h2
        · exact h2
        · exact absurd h2 (convert_no_delete i q b p)

theorem build_failed_grows (q : Nat) (dr b : Bool) : ∀ (l : List ImageInfo) (st : BuildState),
    ∃ t, (List.foldl (processImage q dr b) st l).failed = st.failed ++ t := by
  intro l
  induction l with
  | nil => intro st; exact ⟨[], by simp⟩
  | cons i l ih =>
    intro st
    obtain ⟨t, ht⟩ := ih (processImage q dr b st i)
    rw [List.foldl_cons, ht]
    cases dr with
    | true => exact ⟨t, by rw [processImage_dry]⟩
    | false =>
      cases hok : (convertToWebp i q b).ok with
      | true => exact ⟨t, by rw [processImage_ok q b st i hok]⟩
      | false =>
        refine ⟨[i.path] ++ t, ?_⟩
        rw [processImage_fail q b st i hok]
        simp

theorem c2_fold (q : Nat) (b : Bool) : ∀ (l : List ImageInfo) (st1 st2 : BuildState),
    (∀ i ∈ l, (convertToWebp i q b).ok = true) →
    st1.mappings = st2.mappings → st1.converted = st2.converted →
    st1.failed = st2.failed → st1.totalOriginalSize = st2.totalOriginalSize →
    (List.foldl (processImage q true b) st1 l).mappings
        = (List.foldl (processImage q false b) st2 l).mappings ∧
    (List.foldl (processImage q true b) st1 l).converted
        = (List.foldl (processImage q false b) st2 l).converted ∧
    (List.foldl (processImage q true b) st1 l).failed
        = (List.foldl (processImage q false b) st2 l).failed ∧
    (List.foldl (processImage q true b) st1 l).totalOriginalSize
        = (List.foldl (processImage q false b) st2 l).totalOriginalSize := by
  intro l
  induction l with
  | nil => intro st1 st2 _ h1 h2 h3 h4; exact ⟨h1, h2, h3, h4⟩
  | cons i l ih =>
    intro st1 st2 hok h1 h2 h3 h4
    rw [List.foldl_cons, List.foldl_cons]
    refine ih _ _ (fun j hj => hok j (List.mem_cons_of_mem i hj)) ?_ ?_ ?_ ?_ <;>
      rw [processImage_dry, processImage_ok q b st2 i (hok i (List.mem_cons_self i l))] <;>
      simp [h1, h2, h3, h4]

theorem c8_fold (q : Nat) (b : Bool) : ∀ (l : List ImageInfo) (st1 st2 : BuildState),
    st1.mappings = st2.mappings → st1.converted = st2.converted →
    st1.failed.length = st2.failed.length + 1 →
    (List.foldl (processImage q false b) st1 l).mappings
        = (List.foldl (processImage q false b) st2 l).mappings ∧
    (List.foldl (processImage q false b) st1 l).converted
        = (List.foldl (processImage q false b) st2 l).converted ∧
    (List.foldl (processImage q false b) st1 l).failed.length
        = (List.foldl (processImage q false b) st2 l).failed.length + 1 := by
  intro l
  induction l with
  | nil => intro st1 st2 h1 h2 h3; exact ⟨h1, h2, h3⟩
  | cons i l ih =>
    intro st1 st2 h1 h2 h3
    rw [List.foldl_cons, List.foldl_cons]
    cases hok : (convertToWebp i q b).ok with
    | true =>
      refine ih _ _ ?_ ?_ ?_ <;>
        rw [processImage_ok q b st1 i hok, processImage_ok q b st2 i hok] <;>
        simp [h1, h2, h3]
    | false =>
      refine ih _ _ ?_ ?_ ?_ <;>
        rw [processImage_fail q b st1 i hok, processImage_fail q b st2 i hok] <;>
        simp [h1, h2, h3]

theorem revDot_webp (t : List Char) :
    revDotIdx (('p' :: 'b' :: 'e' :: 'w' :: '.' :: []) ++ t) = some 4 := by
  simp [revDotIdx]

theorem split_append_webp (stem : List Char) (h : stem ≠ []) :
    pySplitExtList (stem ++ ('.' :: 'w' :: 'e' :: 'b' :: 'p' :: [])) =
      (stem, '.' :: 'w' :: 'e' :: 'b' :: 'p' :: []) := by
  have hrev : (stem ++ ('.' :: 'w' :: 'e' :: 'b' :: 'p' :: [])).reverse
      = ('p' :: 'b' :: 'e' :: 'w' :: '.' :: []) ++ stem.reverse := by
    simp
  have hlen : (stem ++ ('.' :: 'w' :: 'e' :: 'b' :: 'p' :: [])).length = stem.length + 5 := by
    simp
  have hpos : 0 < stem.length := List.length_pos.2 h
  unfold pySplitExtList
  rw [hrev, revDot_webp]
  show (if 0 < 4 ∧ 4 + 1 < (stem ++ ('.' :: 'w' :: 'e' :: 'b' :: 'p' :: [])).length then
      ((List.drop (4 + 1) (('p' :: 'b' :: 'e' :: 'w' :: '.' :: []) ++ stem.reverse)).reverse,
        (List.take (4 + 1) (('p' :: 'b' :: 'e' :: 'w' :: '.' :: []) ++ stem.reverse)).reverse)
    else (stem ++ ('.' :: 'w' :: 'e' :: 'b' :: 'p' :: []), [])) =
      (stem, '.' :: 'w' :: 'e' :: 'b' :: 'p' :: [])
  rw [if_pos ⟨by omega, by omega⟩]
  have hd : List.drop (4 + 1) (('p' :: 'b' :: 'e' :: 'w' :: '.' :: []) ++ stem.reverse)
      = stem.reverse := rfl
  have ht : List.take (4 + 1) (('p' :: 'b' :: 'e' :: 'w' :: '.' :: []) ++ stem.reverse)
      = 'p' :: 'b' :: 'e' :: 'w' :: '.' :: [] := rfl
  rw [hd, ht, List.reverse_reverse]
  rfl

theorem isImage_suffix_ne (n : String) (h : isImageName n = true) : pySuffix n ≠ "" := by
  intro h0
  unfold isImageName at h
  rw [h0] at h
  exact absurd h (by decide)

theorem suffix_ne_stem_ne_nil (n : String) (h : pySuffix n ≠ "") :
    (pySplitExtList n.toList).1 ≠ [] := by
  unfold pySuffix at h
  unfold pySplitExtList at h ⊢
  cases hidx : revDotIdx n.toList.reverse with
  | none =>
    rw [hidx] at h
    exact absurd rfl h
  | some j =>
    rw [hidx] at h
    by_cases hcond : 0 < j ∧ j + 1 < n.toList.length
    · show ((if 0 < j ∧ j + 1 < n.toList.length then
          ((List.drop (j + 1) n.toList.reverse).reverse,
            (List.take (j + 1) n.toList.reverse).reverse)
        else (n.toList, [])).1 ≠ [])
      rw [if_pos hcond]
      intro hnil
      have hlen := congrArg List.length hnil
      simp only [List.length_reverse, List.length_drop, List.length_nil] at hlen
      omega
    · refine absurd ?_ h
      show ({ data := (if 0 < j ∧ j + 1 < n.toList.length then
          ((List.drop (j + 1) n.toList.reverse).reverse,
            (List.take (j + 1) n.toList.reverse).reverse)
        else (n.toList, [])).2 } : String) = ""
      rw [if_neg hcond]

theorem stem_suffix_webp (n : String) (h : isImageName n = true) :
    pyStem (withSuffixName n ".webp") = pyStem n ∧
    pySuffix (withSuffixName n ".webp") = ".webp" := by
  have h1 := suffix_ne_stem_ne_nil n (isImage_suffix_ne n h)
  have h2 : (withSuffixName n ".webp").toList
      = (pySplitExtList n.toList).1 ++ ('.' :: 'w' :: 'e' :: 'b' :: 'p' :: []) := by
    show (pyStem n ++ ".webp").data = _
    rw [String.data_append]
    rfl
  constructor
  · unfold pyStem
    rw [h2, split_append_webp _ h1]
  · unfold pySuffix
    rw [h2, split_append_webp _ h1]

theorem build_wf (q : Nat) (dr b : Bool) : ∀ (l : List ImageInfo) (st : BuildState),
    (∀ k, countKey st.mappings k ≤ 1) →
    ∀ k, countKey (List.foldl (processImage q dr b) st l).mappings k ≤ 1 := by
  intro l
  induction l with
  | nil => intro st h; exact h
  | cons i l ih =>
    intro st h
    rw [List.foldl_cons]
    refine ih _ ?_
    cases dr with
    | true =>
      rw [processImage_dry]
      exact wf_dictInsert _ _ _ h
    | false =>
      cases hok : (convertToWebp i q b).ok with
      | true =>
        rw [processImage_ok q b st i hok]
        exact wf_dictInsert _ _ _ h
      | false =>
        rw [processImage_fail q b st i hok]
        exact h

theorem mapping_entry_preserved (q : Nat) (dr b : Bool) (bn : String) :
    ∀ (l : List ImageInfo) (st : BuildState),
    (∀ k, countKey st.mappings k ≤ 1) →
    countKey st.mappings bn = 1 →
    dictLookup st.mappings bn = some (withSuffixName bn ".webp") →
    countKey (List.foldl (processImage q dr b) st l).mappings bn = 1 ∧
    dictLookup (List.foldl (processImage q dr b) st l).mappings bn
      = some (withSuffixName bn ".webp") := by
  intro l
  induction l with
  | nil => intro st _ h1 h2; exact ⟨h1, h2⟩
  | cons i l ih =>
    intro st hwf h1 h2
    rw [List.foldl_cons]
    have hstep : ∀ st' : BuildState,
        st'.mappings = dictInsert st.mappings i.path.name
          (withSuffixPath i.path ".webp").name →
        countKey st'.mappings bn = 1 ∧
        dictLookup st'.mappings bn = some (withSuffixName bn ".webp") ∧
        (∀ k, countKey st'.mappings k ≤ 1) := by
      intro st' hm
      by_cases hk : i.path.name = bn
      · subst hk
        rw [hm]
        refine ⟨countKey_insert_self _ _ _ (hwf _), ?_, wf_dictInsert _ _ _ hwf⟩
        exact dictLookup_insert_self _ _ _
      · rw [hm]
        refine ⟨?_, ?_, wf_dictInsert _ _ _ hwf⟩
        · rw [countKey_insert_other _ _ _ _ (fun he => hk he.symm)]
          exact h1
        · rw [dictLookup_insert_other _ _ _ _ (fun he => hk he.symm)]
          exact h2
    cases dr with
    | true =>
      obtain ⟨ha, hb', hc⟩ := hstep (processImage q true b st i) (by rw [processImage_dry])
      exact ih _ hc ha hb'
    | false =>
      cases hok : (convertToWebp i q b).ok with
      | true =>
        obtain ⟨ha, hb', hc⟩ := hstep (processImage q false b st i)
          (by rw [processImage_ok q b st i hok])
        exact ih _ hc ha hb'
      | false =>
        refine ih _ ?_ ?_ ?_ <;> rw [processImage_fail q b st i hok]
        · exact hwf
        · exact h1
        · exact h2

theorem mapping_entry (q : Nat) (dr b : Bool) (images : List ImageInfo) (bn : String)
    (h : ∃ i, i ∈ images ∧ i.path.name = bn ∧
          (dr = true ∨ (convertToWebp i q b).ok = true)) :
    countKey (buildAll q dr b images).mappings bn = 1 ∧
    dictLookup (buildAll q dr b images).mappings bn
      = some (withSuffixName bn ".webp") := by
  obtain ⟨i, hmem, hname, hproc⟩ := h
  obtain ⟨xs, ys, hsplit⟩ := List.append_of_mem hmem
  subst hsplit
  unfold buildAll
  rw [List.foldl_append, List.foldl_cons]
  have hwfA : ∀ k, countKey (List.foldl (processImage q dr b) initBuild xs).mappings k ≤ 1 := by
    refine build_wf q dr b xs initBuild ?_
    intro k
    simp [initBuild, countKey]
  set A := List.foldl (processImage q dr b) initBuild xs with hA
  have hwsn : (withSuffixPath i.path ".webp").name = withSuffixName bn ".webp" := by
    rw [← hname]; rfl
  have hstep : (processImage q dr b A i).mappings
      = dictInsert A.mappings bn (withSuffixName bn ".webp") := by
    cases dr with
    | true =>
      rw [processImage_dry]
      simp only [hwsn, hname]
    | false =>
      rcases hproc with hproc | hproc
      · exact absurd hproc (by simp)
      · rw [processImage_ok q b A i hproc]
        simp only [hwsn, hname]
  refine mapping_entry_preserved q dr b bn ys _ ?_ ?_ ?_
  · rw [hstep]
    exact wf_dictInsert _ _ _ hwfA
  · rw [hstep]
    exact countKey_insert_self _ _ _ (hwfA bn)
  · rw [hstep]
    exact dictLookup_insert_self _ _ _

theorem build_converted_good (q : Nat) (dr b : Bool) : ∀ (l : List ImageInfo) (st : BuildState),
    (∀ i ∈ l, isImageName i.path.name = true) →
    (∀ pr ∈ st.converted, pr.2.dir = pr.1.dir ∧
      pyStem pr.2.name = pyStem pr.1.name ∧ pySuffix pr.2.name = ".webp") →
    ∀ pr ∈ (List.foldl (processImage q dr b) st l).converted,
      pr.2.dir = pr.1.dir ∧ pyStem pr.2.name = pyStem pr.1.name ∧
      pySuffix pr.2.name = ".webp" := by
  intro l
  induction l with
  | nil => intro st _ hst; exact hst
  | cons i l ih =>
    intro st hl hst
    rw [List.foldl_cons]
    refine ih _ (fun j hj => hl j (List.mem_cons_of_mem i hj)) ?_
    have hi := hl i (List.mem_cons_self i l)
    have hnew : ∀ pr ∈ st.converted ++ [(i.path, withSuffixPath i.path ".webp")],
        pr.2.dir = pr.1.dir ∧ pyStem pr.2.name = pyStem pr.1.name ∧
        pySuffix pr.2.name = ".webp" := by
      intro pr hpr
      rcases List.mem_append.1 hpr with hpr | hpr
      · exact hst pr hpr
      · simp only [List.mem_singleton] at hpr
        subst hpr
        obtain ⟨hstem, hsuf⟩ := stem_suffix_webp i.path.name hi
        exact ⟨rfl, hstem, hsuf⟩
    cases dr with
    | true =>
      rw [processImage_dry]
      exact hnew
    | false =>
      cases hok : (convertToWebp i q b).ok with
      | true =>
        rw [processImage_ok q b st i hok]
        exact hnew
      | false =>
        rw [processImage_fail q b st i hok]
        exact hst

theorem updateFile_dry_effects (f : CodeFileInfo) (m : List (String × String)) :
    (updateFile f m true).2 = [] := by
  unfold updateFile
  cases f.content with
  | none => rfl
  | some c =>
    simp only []
    split
    · rfl
    · rfl

theorem updateFile_no_delete (f : CodeFileInfo) (m : List (String × String)) (dr : Bool)
    (p : FsPath) : FsEffect.delete p ∉ (updateFile f m dr).2 := by
  unfold updateFile
  cases f.content with
  | none => simp
  | some c =>
    simp only []
    split
    · cases dr <;> simp
    · simp

theorem rewrite_dry (m : List (String × String)) : ∀ (files : List CodeFileInfo)
    (acc : Nat × List FsEffect),
    (List.foldl (rwStep m true) acc files).2 = acc.2 := by
  intro files
  induction files with
  | nil => intro acc; rfl
  | cons f files ih =>
    intro acc
    rw [List.foldl_cons, ih]
    simp [rwStep, updateFile_dry_effects]

theorem rewrite_no_delete (m : List (String × String)) (dr : Bool) (p : FsPath) :
    ∀ (files : List CodeFileInfo) (acc : Nat × List FsEffect),
    FsEffect.delete p ∈ (List.foldl (rwStep m dr) acc files).2 →
    FsEffect.delete p ∈ acc.2 := by
  intro files
  induction files with
  | nil => intro acc h; exact h
  | cons f files ih =>
    intro acc h
    have h2 := ih _ h
    simp only [rwStep, List.mem_append] at h2
    rcases h2 with h2 | h2
    · exact h2
    · exact absurd h2 (updateFile_no_delete f m dr p)

theorem delFold_mem (ws uo : FsPath → Bool) : ∀ (conv : List (FsPath × FsPath))
    (acc : List FsPath × List FsEffect) (e : FsEffect),
    e ∈ (List.foldl (delStep ws uo) acc conv).2 →
    e ∈ acc.2 ∨ ∃ pr ∈ conv, ws pr.2 = true ∧ uo pr.1 = true ∧ e = FsEffect.delete pr.1 := by
  intro conv
  induction conv with
  | nil => intro acc e h; exact Or.inl h
  | cons pr conv ih =>
    intro acc e h
    rcases ih _ e h with h2 | ⟨pr', hmem, h3⟩
    · unfold delStep at h2
      split at h2
      · split at h2
        · simp only [List.mem_append] at h2
          rcases h2 with h2 | h2
          · exact Or.inl h2
          · simp only [List.mem_singleton] at h2
            rename_i hws huo
            exact Or.inr ⟨pr, List.mem_cons_self pr conv, hws, huo, h2⟩
        · exact Or.inl h2
      · exact Or.inl h2
    · exact Or.inr ⟨pr', List.mem_cons_of_mem pr hmem, h3⟩

/-! Claim theorems. -/

/-- C1 counterexample: the quoted-attribute rule has no filename boundary,
so under mapping photo.jpg→photo.webp the longer filename my-photo.jpg is
not left unchanged: it is rewritten to my-photo.webp. -/
theorem c1_boundary_counterexample :
    (updateRefs "src=\"my-photo.jpg\"" [("photo.jpg", "photo.webp")]).1
        ≠ "src=\"my-photo.jpg\"" ∧
    updateRefs "src=\"my-photo.jpg\"" [("photo.jpg", "photo.webp")]
        = ("src=\"my-photo.webp\"", 1) := by
  decide

/-- C1 (amended): each of the three rewrite rules substitutes only the
matched occurrence of the old filename, preserving the captured prefix and
the surrounding delimiter characters (shown by the decomposition of every
successful match of each rule); the spec's three examples rewrite as
stated; but matching enforces no filename boundary, so a longer filename
that merely ends with old is also rewritten, its leading characters
preserved. -/
theorem c1_rules_substitute_filename_token :
    (∀ (old new s : List Char) (n : Nat) (repl : List Char),
      p1MatchAt old new s = some (n, repl) →
      ∃ q1 mid ov q2 r, s = q1 :: (mid ++ (ov ++ q2 :: r)) ∧
        isQuote q1 = true ∧ isQuote q2 = true ∧ eqIList old ov = true ∧
        mid.all (fun c => !(isQuote c)) = true ∧
        repl = q1 :: (mid ++ (new ++ [q2])) ∧ n = mid.length + ov.length + 2) ∧
    (∀ (old new s : List Char) (n : Nat) (repl : List Char),
      p2MatchAt old new s = some (n, repl) →
      ∃ g1 g2 mid ov g5 r, s = g1 ++ (g2 ++ (mid ++ (ov ++ (g5 ++ r)))) ∧
        eqIList old ov = true ∧
        repl = g1 ++ (g2 ++ (mid ++ (new ++ g5))) ∧
        n = g1.length + g2.length + mid.length + ov.length + g5.length) ∧
    (∀ (old new s : List Char) (n : Nat) (repl : List Char),
      p3MatchAt old new s = some (n, repl) →
      ∃ g1 mid ov r, s = g1 ++ (mid ++ (ov ++ ')' :: r)) ∧
        eqIList old ov = true ∧
        repl = g1 ++ (mid ++ (new ++ [')'])) ∧
        n = g1.length + mid.length + ov.length + 1) ∧
    updateRefs "src=\"/assets/img/photo.jpg\"" [("photo.jpg", "photo.webp")]
        = ("src=\"/assets/img/photo.webp\"", 1) ∧
    updateRefs "background: url('old.png');" [("old.png", "old.webp")]
        = ("background: url('old.webp');", 1) ∧
    updateRefs "![Logo](images/logo.png)" [("logo.png", "logo.webp")]
        = ("![Logo](images/logo.webp)", 1) ∧
    updateRefs "src=\"my-photo.jpg\"" [("photo.jpg", "photo.webp")]
        = ("src=\"my-photo.webp\"", 1) :=
  ⟨p1MatchAt_sound, p2MatchAt_sound, p3MatchAt_sound,
   by decide, by decide, by decide, by decide⟩

/-- C1 witness: the first rule's decomposition at a concrete match. -/
theorem c1_rules_witness :
    ∃ q1 mid ov q2 r, ("\"a.jpg\"").toList = q1 :: (mid ++ (ov ++ q2 :: r)) ∧
      isQuote q1 = true ∧ isQuote q2 = true ∧
      eqIList "a.jpg".toList ov = true ∧
      mid.all (fun c => !(isQuote c)) = true ∧
      "\"a.webp\"".toList = q1 :: (mid ++ ("a.webp".toList ++ [q2])) ∧
      7 = mid.length + ov.length + 2 :=
  c1_rules_substitute_filename_token.1 "a.jpg".toList "a.webp".toList
    "\"a.jpg\"".toList 7 "\"a.webp\"".toList (by decide)

/-- C2 counterexample: with a failing conversion the dry-run mapping has
an entry the real run lacks, and even with a successful conversion the
dry-run new-size statistic stays 0 while the real run accumulates it. -/
theorem c2_dry_real_counterexample :
    (buildAll 85 true false [⟨⟨[], "a.jpg"⟩, 10, false, true, false, 0⟩]).mappings
        ≠ (buildAll 85 false false [⟨⟨[], "a.jpg"⟩, 10, false, true, false, 0⟩]).mappings ∧
    (buildAll 85 true false [⟨⟨[], "b.png"⟩, 10, false, true, true, 7⟩]).totalNewSize
        ≠ (buildAll 85 false false [⟨⟨[], "b.png"⟩, 10, false, true, true, 7⟩]).totalNewSize := by
  decide

/-- C2 (amended): when every conversion succeeds, the dry-run and real
builds agree on the mapping, the converted pairs, the failed list, and the
total original size, and every image's basename maps to its stem with the
.webp extension; the dry run accumulates no converted-size statistic. -/
theorem c2_dry_run_matches_real_on_success (q : Nat) (b : Bool) (images : List ImageInfo)
    (h : ∀ i ∈ images, (convertToWebp i q b).ok = true) :
    (buildAll q true b images).mappings = (buildAll q false b images).mappings ∧
    (buildAll q true b images).converted = (buildAll q false b images).converted ∧
    (buildAll q true b images).failed = (buildAll q false b images).failed ∧
    (buildAll q true b images).totalOriginalSize
        = (buildAll q false b images).totalOriginalSize ∧
    (buildAll q true b images).totalNewSize = 0 ∧
    ∀ i ∈ images, dictLookup (buildAll q false b images).mappings i.path.name
      = some (withSuffixName i.path.name ".webp") := by
  obtain ⟨h1, h2, h3, h4⟩ := c2_fold q b images initBuild initBuild h rfl rfl rfl rfl
  refine ⟨h1, h2, h3, h4, ?_, ?_⟩
  · exact build_totalNew_dry q b images initBuild
  · intro i hi
    exact (mapping_entry q false b images i.path.name ⟨i, hi, rfl, Or.inr (h i hi)⟩).2

/-- C2 witness: dry-run and real mappings agree on a one-image set whose
conversion succeeds. -/
theorem c2_witness :
    (buildAll 85 true false [⟨⟨["img"], "photo.jpg"⟩, 10, false, true, true, 3⟩]).mappings
      = (buildAll 85 false false [⟨⟨["img"], "photo.jpg"⟩, 10, false, true, true, 3⟩]).mappings :=
  (c2_dry_run_matches_real_on_success 85 false
    [⟨⟨["img"], "photo.jpg"⟩, 10, false, true, true, 3⟩] (by decide)).1

/-- C3: in dry-run mode the whole pipeline performs no filesystem
mutation: the effect list of the entire run is empty. -/
theorem c3_dry_run_no_effects (q : Nat) (b del : Bool) (images : List ImageInfo)
    (codeFiles : List CodeFileInfo) (ws uo : FsPath → Bool) :
    mainEffects q true b del images codeFiles ws uo = [] := by
  unfold mainEffects runMain
  cases himg : images.isEmpty with
  | true => simp [himg, initBuild]
  | false =>
    simp only [himg, Bool.false_eq_true, if_false]
    have h1 : (buildAll q true b images).effects = [] := build_effects_dry q b images initBuild
    have h2 : (rewritePhase codeFiles (buildAll q true b images).mappings true).2 = [] :=
      rewrite_dry _ codeFiles (0, [])
    have h3 : deletePhase del true (buildAll q true b images).converted ws uo = ([], []) := by
      unfold deletePhase
      rw [if_neg]
      simp
    simp [h1, h2, h3]

/-- C4 counterexample: with no --path argument the resolved root is the
script directory, which differs from the invocation directory in an
environment where the two disagree. -/
theorem c4_default_root_counterexample :
    resolveRoot ⟨⟨["home"], "user"⟩, ⟨["opt"], "tools"⟩⟩ (fun _ => ⟨[], "x"⟩) none
        ≠ (⟨⟨["home"], "user"⟩, ⟨["opt"], "tools"⟩⟩ : Env).cwd := by
  decide

/-- C4 (amended): when the --path option is not given, the scanned root is
the directory containing the script file (`Path(__file__).resolve().parent`),
not the invocation directory. -/
theorem c4_default_root_is_script_dir (env : Env) (osResolve : String → FsPath) :
    resolveRoot env osResolve none = env.scriptDir := rfl

/-- C5: every converted pair recorded by the conversion loop — in dry-run
and in real mode alike — has a destination in the same directory as the
source, with the same stem and the .webp suffix. -/
theorem c5_dest_same_dir_stem_webp (q : Nat) (dr b : Bool) (images : List ImageInfo)
    (h : ∀ i ∈ images, isImageName i.path.name = true) :
    ∀ pr ∈ (buildAll q dr b images).converted,
      pr.2.dir = pr.1.dir ∧ pyStem pr.2.name = pyStem pr.1.name ∧
      pySuffix pr.2.name = ".webp" :=
  build_converted_good q dr b images initBuild h
    (by intro pr hpr; simp [initBuild] at hpr)

/-- C5 witness: the projected pair of a concrete image. -/
theorem c5_witness :
    ((⟨["a"], "photo.jpg"⟩, ⟨["a"], "photo.webp"⟩) : FsPath × FsPath).2.dir
        = ((⟨["a"], "photo.jpg"⟩, ⟨["a"], "photo.webp"⟩) : FsPath × FsPath).1.dir ∧
    pyStem ((⟨["a"], "photo.jpg"⟩, ⟨["a"], "photo.webp"⟩) : FsPath × FsPath).2.name
        = pyStem ((⟨["a"], "photo.jpg"⟩, ⟨["a"], "photo.webp"⟩) : FsPath × FsPath).1.name ∧
    pySuffix ((⟨["a"], "photo.jpg"⟩, ⟨["a"], "photo.webp"⟩) : FsPath × FsPath).2.name = ".webp" :=
  c5_dest_same_dir_stem_webp 85 true false
    [⟨⟨["a"], "photo.jpg"⟩, 4, false, true, true, 2⟩] (by decide)
    (⟨["a"], "photo.jpg"⟩, ⟨["a"], "photo.webp"⟩) (by decide)

/-- C6: with backup enabled, a run that sees an existing backup sibling
performs no copy, and in two successive runs the second never copies onto
a backup the first created or observed — the backup file is never
overwritten. -/
theorem c6_backup_idempotent (info : ImageInfo) (q : Nat) :
    (info.backupExists = true →
      hasCopyTo (convertTwice info q true).1.effects (backupPathOf info.path) = false ∧
      hasCopyTo (convertTwice info q true).2.effects (backupPathOf info.path) = false) ∧
    (hasCopyTo (convertTwice info q true).1.effects (backupPathOf info.path) = true →
      hasCopyTo (convertTwice info q true).2.effects (backupPathOf info.path) = false) := by
  rcases info with ⟨p, sz, be, co, ck, ns⟩
  cases be <;> cases co <;> cases ck <;>
    simp [convertTwice, convertToWebp, fileExistsAfter, applyEffect, hasCopyTo]

/-- C6 witness: with the backup sibling already present, neither of two
successive runs emits a copy. -/
theorem c6_witness :
    hasCopyTo (convertTwice ⟨⟨[], "a.jpg"⟩, 5, true, true, true, 3⟩ 85 true).1.effects
        (backupPathOf ⟨[], "a.jpg"⟩) = false ∧
    hasCopyTo (convertTwice ⟨⟨[], "a.jpg"⟩, 5, true, true, true, 3⟩ 85 true).2.effects
        (backupPathOf ⟨[], "a.jpg"⟩) = false :=
  (c6_backup_idempotent ⟨⟨[], "a.jpg"⟩, 5, true, true, true, 3⟩ 85).1 rfl

/-- C7: a delete effect occurs in a run only when deletion was requested
and dry-run is off, and only for an original whose converted counterpart
is a recorded pair and is present on disk. -/
theorem c7_delete_only_when_guarded (q : Nat) (dr b del : Bool) (images : List ImageInfo)
    (codeFiles : List CodeFileInfo) (ws uo : FsPath → Bool) (p : FsPath)
    (h : FsEffect.delete p ∈ mainEffects q dr b del images codeFiles ws uo) :
    del = true ∧ dr = false ∧
    ∃ w, (p, w) ∈ (buildAll q dr b images).converted ∧ ws w = true := by
  unfold mainEffects runMain at h
  cases himg : images.isEmpty with
  | true => rw [himg] at h; simp [initBuild] at h
  | false =>
    rw [himg] at h
    simp only [Bool.false_eq_true, if_false, List.mem_append] at h
    rcases h with (h | h) | h
    · have h2 := build_no_delete q dr b p images initBuild h
      simp [initBuild] at h2
    · have h2 := rewrite_no_delete _ dr p codeFiles (0, []) h
      simp at h2
    · unfold deletePhase at h
      split at h
      · rename_i hguard
        rcases delFold_mem ws uo _ ([], []) _ h with h2 | ⟨pr, hmem, hws, huo, heq⟩
        · simp at h2
        · injection heq with hp
          refine ⟨hguard.1, hguard.2.1, pr.2, ?_, hws⟩
          rw [hp]
          simpa using hmem
      · simp at h

/-- C7 witness: a run that does delete satisfies the guard. -/
theorem c7_witness :
    true = true ∧ false = false ∧
    ∃ w, ((⟨[], "a.jpg"⟩ : FsPath), w)
        ∈ (buildAll 85 false false [⟨⟨[], "a.jpg"⟩, 5, false, true, true, 3⟩]).converted ∧
      (fun _ : FsPath => true) w = true :=
  c7_delete_only_when_guarded 85 false false true
    [⟨⟨[], "a.jpg"⟩, 5, false, true, true, 3⟩] [] (fun _ => true) (fun _ => true)
    ⟨[], "a.jpg"⟩ (by decide)

/-- C8: a failed conversion is reported with the attempted .webp
destination, contributes nothing to the mapping or the converted pairs,
is counted once in the failed list, and the remaining images are processed
exactly as if the failed one were absent. -/
theorem c8_failure_isolated (q : Nat) (b : Bool) (xs ys : List ImageInfo) (i : ImageInfo)
    (h : (convertToWebp i q b).ok = false) :
    (convertToWebp i q b).dest = withSuffixPath i.path ".webp" ∧
    (buildAll q false b (xs ++ i :: ys)).mappings
        = (buildAll q false b (xs ++ ys)).mappings ∧
    (buildAll q false b (xs ++ i :: ys)).converted
        = (buildAll q false b (xs ++ ys)).converted ∧
    (buildAll q false b (xs ++ i :: ys)).failed.length
        = (buildAll q false b (xs ++ ys)).failed.length + 1 ∧
    i.path ∈ (buildAll q false b (xs ++ i :: ys)).failed := by
  refine ⟨convert_dest i q b, ?_⟩
  unfold buildAll
  rw [List.foldl_append, List.foldl_append, List.foldl_cons]
  set A := List.foldl (processImage q false b) initBuild xs with hA
  have hstep := processImage_fail q b A i h
  obtain ⟨h1, h2, h3⟩ := c8_fold q b ys (processImage q false b A i) A
    (by rw [hstep]) (by rw [hstep]) (by rw [hstep]; simp)
  refine ⟨h1, h2, h3, ?_⟩
  obtain ⟨t, ht⟩ := build_failed_grows q false b ys (processImage q false b A i)
  rw [ht, hstep]
  simp

/-- C8 witness: a failing image lands in the failed list of a concrete
run while its neighbours are processed. -/
theorem c8_witness :
    (⟨[], "bad.jpg"⟩ : FsPath) ∈ (buildAll 85 false false
      [⟨⟨[], "ok1.jpg"⟩, 5, false, true, true, 2⟩,
       ⟨⟨[], "bad.jpg"⟩, 5, false, true, false, 0⟩,
       ⟨⟨[], "ok2.png"⟩, 5, false, true, true, 2⟩]).failed :=
  (c8_failure_isolated 85 false [⟨⟨[], "ok1.jpg"⟩, 5, false, true, true, 2⟩]
    [⟨⟨[], "ok2.png"⟩, 5, false, true, true, 2⟩]
    ⟨⟨[], "bad.jpg"⟩, 5, false, true, false, 0⟩ (by decide)).2.2.2.2

/-- C9 counterexample: two discovered images in different directories
share the basename a.jpg and both fail conversion in a real run; the
mapping then has zero entries for that basename, not exactly one. -/
theorem c9_basename_collision_counterexample :
    countKey (buildAll 85 false false
      [⟨⟨["d1"], "a.jpg"⟩, 5, false, true, false, 0⟩,
       ⟨⟨["d2"], "a.jpg"⟩, 6, false, true, false, 0⟩]).mappings "a.jpg" = 0 := by
  decide

/-- C9 (amended): as soon as some image with basename bn is entered into
the mapping (always in dry-run mode, and on successful conversion
otherwise), the mapping holds exactly one entry for bn, whose value is the
projected filename stem + .webp — determined by the basename alone, hence
equal for every colliding image, in particular the one processed last;
later images silently overwrite earlier entries. -/
theorem c9_single_entry_per_basename (q : Nat) (dr b : Bool) (images : List ImageInfo)
    (bn : String)
    (h : ∃ i, i ∈ images ∧ i.path.name = bn ∧
          (dr = true ∨ (convertToWebp i q b).ok = true)) :
    countKey (buildAll q dr b images).mappings bn = 1 ∧
    dictLookup (buildAll q dr b images).mappings bn
        = some (withSuffixName bn ".webp") :=
  mapping_entry q dr b images bn h

/-- C9 witness: two colliding basenames in dry-run mode produce exactly
one mapping entry with the projected value. -/
theorem c9_witness :
    countKey (buildAll 85 true false
      [⟨⟨["d1"], "a.jpg"⟩, 5, false, true, true, 1⟩,
       ⟨⟨["d2"], "a.jpg"⟩, 6, false, true, true, 1⟩]).mappings "a.jpg" = 1 ∧
    dictLookup (buildAll 85 true false
      [⟨⟨["d1"], "a.jpg"⟩, 5, false, true, true, 1⟩,
       ⟨⟨["d2"], "a.jpg"⟩, 6, false, true, true, 1⟩]).mappings "a.jpg"
        = some (withSuffixName "a.jpg" ".webp") :=
  c9_single_entry_per_basename 85 true false
    [⟨⟨["d1"], "a.jpg"⟩, 5, false, true, true, 1⟩,
     ⟨⟨["d2"], "a.jpg"⟩, 6, false, true, true, 1⟩] "a.jpg"
    ⟨⟨⟨["d1"], "a.jpg"⟩, 5, false, true, true, 1⟩, by decide, rfl, Or.inl rfl⟩

/-- C10: when the backup copy succeeds but the decode/encode fails, the
operation reports failure yet its only effect is the backup copy, and the
backup file exists afterwards — the failure path does not remove it. -/
theorem c10_backup_survives_failed_convert (info : ImageInfo) (q : Nat)
    (h1 : info.backupExists = false) (h2 : info.copyOk = true)
    (h3 : info.convertOk = false) :
    (convertToWebp info q true).ok = false ∧
    (convertToWebp info q true).effects
        = [FsEffect.copy info.path (backupPathOf info.path)] ∧
    fileExistsAfter false (convertToWebp info q true).effects
        (backupPathOf info.path) = true := by
  simp [convertToWebp, h1, h2, h3, fileExistsAfter, applyEffect]

/-- C10 witness: a concrete image whose backup copy succeeds and whose
conversion fails leaves the backup on disk. -/
theorem c10_witness :
    (convertToWebp ⟨⟨[], "a.jpg"⟩, 5, false, true, false, 0⟩ 85 true).ok = false ∧
    (convertToWebp ⟨⟨[], "a.jpg"⟩, 5, false, true, false, 0⟩ 85 true).effects
        = [FsEffect.copy (⟨[], "a.jpg"⟩ : FsPath)
            (backupPathOf (⟨[], "a.jpg"⟩ : FsPath))] ∧
    fileExistsAfter false
        (convertToWebp ⟨⟨[], "a.jpg"⟩, 5, false, true, false, 0⟩ 85 true).effects
        (backupPathOf (⟨[], "a.jpg"⟩ : FsPath)) = true :=
  c10_backup_survives_failed_convert ⟨⟨[], "a.jpg"⟩, 5, false, true, false, 0⟩ 85 rfl rfl rfl
